import Mathlib

/-!
Verification of `tools/g.html2man/g.html2man.py`, an HTML to groff man-page
converter.  The script's own logic is:

* `fix` — a recursive tree transform that removes table-of-contents blocks
  (a `div` whose attribute list contains the exact pair `("class", "toc")`)
  from the parsed document;
* `main` — the driver: feed the input line by line to an HTML parser inside
  a `try` with two `except` branches (markup parse error / any other
  exception), format the filtered tree to groff text into a string buffer,
  post-process whitespace with `re.sub("[ \t\n]*\n([ \t]*\n)*", "\n", s)`
  followed by `s.lstrip()`, and only then open and write the destination
  file.

The HTML parser (`html` module) and the groff formatter (`groff` module) are
imported by the script but are not part of it; they appear below only as
abstract parameters of the driver model.
-/

namespace Html2man

/-- Python values as `fix` sees them: the parsed document is built from
`(tag, attrs, body)` tuples, lists of nodes and strings (text); `None`
(`vnone`) is what `fix` returns for a removed subtree, and a list element
equal to `None` is dropped by the list comprehension. -/
inductive PyVal : Type where
  | tup (tag : String) (attrs : List (String × String)) (body : PyVal)
  | vlist (items : List PyVal)
  | vstr (s : String)
  | vnone

/-- The Python test `… is None`. -/
def PyVal.isNone : PyVal → Bool
  | .vnone => true
  | _ => false

theorem PyVal.isNone_iff (v : PyVal) : v.isNone = true ↔ v = PyVal.vnone := by
  cases v <;> simp [PyVal.isNone]

mutual
/-- `fix` from g.html2man.py:

```
def fix(content):
    if isinstance(content, tuple):
        tag, attrs, body = content
        if tag == 'div' and ('class', 'toc') in attrs:
            return None
        else:
            return (tag, attrs, fix(body))
    elif isinstance(content, list):
        return [fixed
                for item in content
                for fixed in [fix(item)]
                if fixed is not None]
    else:
        return content
```
-/
def fix : PyVal → PyVal
  | .tup tag attrs body =>
      if tag = "div" ∧ ("class", "toc") ∈ attrs then .vnone
      else .tup tag attrs (fix body)
  | .vlist items => .vlist (fixList items)
  | .vstr s => .vstr s
  | .vnone => .vnone

/-- The list comprehension in `fix`: each item is filtered and the results
that are `None` are omitted. -/
def fixList : List PyVal → List PyVal
  | [] => []
  | x :: xs => if (fix x).isNone then fixList xs else fix x :: fixList xs
end

/-- A value is a ToC div: tag `div` with the exact attribute pair
`(class, toc)` present. -/
def IsTocDiv : PyVal → Prop
  | .tup tag attrs _ => tag = "div" ∧ ("class", "toc") ∈ attrs
  | _ => False

/-- `Subval d v`: `d` occurs somewhere inside `v` (reflexively, through
tuple bodies and list elements). -/
inductive Subval : PyVal → PyVal → Prop where
  | refl (v : PyVal) : Subval v v
  | tup_body {d b : PyVal} (tag : String) (attrs : List (String × String))
      (h : Subval d b) : Subval d (.tup tag attrs b)
  | list_mem {d x : PyVal} {xs : List PyVal} (hx : x ∈ xs)
      (h : Subval d x) : Subval d (.vlist xs)

theorem fixList_eq_filter_map (xs : List PyVal) :
    fixList xs = (xs.map fix).filter (fun v => ! v.isNone) := by
  induction xs with
  | nil => rfl
  | cons x xs ih =>
      by_cases h : (fix x).isNone <;>
        simp [fixList, List.filter, h, ih]

theorem fixList_append (xs ys : List PyVal) :
    fixList (xs ++ ys) = fixList xs ++ fixList ys := by
  induction xs with
  | nil => rfl
  | cons x xs ih =>
      by_cases h : (fix x).isNone <;> simp [fixList, h, ih]

theorem mem_fixList {v : PyVal} {xs : List PyVal} (h : v ∈ fixList xs) :
    ∃ x ∈ xs, fix x = v ∧ v ≠ PyVal.vnone := by
  induction xs with
  | nil => simp [fixList] at h
  | cons x xs ih =>
      by_cases hx : (fix x).isNone
      · simp only [fixList, if_pos hx] at h
        obtain ⟨y, hy, hfy⟩ := ih h
        exact ⟨y, List.mem_cons_of_mem _ hy, hfy⟩
      · simp only [fixList, if_neg hx] at h
        rcases List.mem_cons.mp h with h | h
        · refine ⟨x, List.mem_cons_self x xs, h.symm, ?_⟩
          rw [h]
          intro hc
          exact hx (((fix x).isNone_iff).mpr hc)
        · obtain ⟨y, hy, hfy⟩ := ih h
          exact ⟨y, List.mem_cons_of_mem _ hy, hfy⟩

theorem subval_tup {d b : PyVal} {t : String} {a : List (String × String)}
    (h : Subval d (.tup t a b)) : d = .tup t a b ∨ Subval d b := by
  cases h with
  | refl => exact Or.inl rfl
  | tup_body _ _ h => exact Or.inr h

theorem subval_vlist {d : PyVal} {xs : List PyVal}
    (h : Subval d (.vlist xs)) : d = .vlist xs ∨ ∃ x ∈ xs, Subval d x := by
  cases h with
  | refl => exact Or.inl rfl
  | list_mem hx h => exact Or.inr ⟨_, hx, h⟩

theorem subval_vstr {d : PyVal} {s : String} (h : Subval d (.vstr s)) :
    d = .vstr s := by
  cases h; rfl

theorem subval_vnone {d : PyVal} (h : Subval d .vnone) : d = .vnone := by
  cases h; rfl

/-- No ToC div occurs anywhere in the output of `fix` (strong induction on
size). -/
theorem fix_no_toc_aux :
    ∀ (n : ℕ) (v : PyVal), sizeOf v ≤ n →
      ∀ d : PyVal, Subval d (fix v) → ¬ IsTocDiv d := by
  intro n
  induction n with
  | zero =>
      intro v hv
      exfalso
      cases v <;> simp at hv
  | succ n ih =>
      intro v hv d hd
      match v with
      | .vstr s =>
          rw [show fix (.vstr s) = .vstr s from by simp [fix]] at hd
          rw [subval_vstr hd]
          simp [IsTocDiv]
      | .vnone =>
          rw [show fix PyVal.vnone = PyVal.vnone from by simp [fix]] at hd
          rw [subval_vnone hd]
          simp [IsTocDiv]
      | .tup t a b =>
          by_cases hg : t = "div" ∧ ("class", "toc") ∈ a
          · rw [show fix (.tup t a b) = .vnone from by simp [fix, hg]] at hd
            rw [subval_vnone hd]
            simp [IsTocDiv]
          · rw [show fix (.tup t a b) = .tup t a (fix b) from by
              simp [fix, hg]] at hd
            rcases subval_tup hd with rfl | hsub
            · simpa [IsTocDiv] using hg
            · have hb : sizeOf b ≤ n := by
                simp at hv
                omega
              exact ih b hb d hsub
      | .vlist xs =>
          rw [show fix (.vlist xs) = .vlist (fixList xs) from by
            simp [fix]] at hd
          rcases subval_vlist hd with rfl | ⟨x, hx, hsub⟩
          · simp [IsTocDiv]
          · obtain ⟨y, hy, hfy, -⟩ := mem_fixList hx
            have hsz : sizeOf y ≤ n := by
              have h1 := List.sizeOf_lt_of_mem hy
              simp at hv
              omega
            exact ih y hsz d (hfy ▸ hsub)

theorem fix_no_toc (v d : PyVal) (h : Subval d (fix v)) : ¬ IsTocDiv d :=
  fix_no_toc_aux (sizeOf v) v le_rfl d h

/-- If every element of `xs` is a `fix` fixed point, filtering `fixList xs`
again is the identity. -/
theorem fixList_idem_of (xs : List PyVal)
    (h : ∀ x ∈ xs, fix (fix x) = fix x) :
    fixList (fixList xs) = fixList xs := by
  induction xs with
  | nil => rfl
  | cons x xs ih =>
      have hx := h x (List.mem_cons_self x xs)
      have hrest : ∀ y ∈ xs, fix (fix y) = fix y :=
        fun y hy => h y (List.mem_cons_of_mem _ hy)
      by_cases hn : (fix x).isNone
      · simp [fixList, hn, ih hrest]
      · simp [fixList, hn, hx, ih hrest]

theorem fix_idem_aux : ∀ (n : ℕ) (v : PyVal), sizeOf v ≤ n →
    fix (fix v) = fix v := by
  intro n
  induction n with
  | zero =>
      intro v hv
      exfalso
      cases v <;> simp at hv
  | succ n ih =>
      intro v hv
      match v with
      | .vstr s => simp [fix]
      | .vnone => simp [fix]
      | .tup t a b =>
          by_cases hg : t = "div" ∧ ("class", "toc") ∈ a
          · simp [fix, hg]
          · rw [show fix (.tup t a b) = .tup t a (fix b) from by
              simp [fix, hg]]
            rw [show fix (.tup t a (fix b)) = .tup t a (fix (fix b)) from by
              simp [fix, hg]]
            have hb : sizeOf b ≤ n := by
              simp at hv
              omega
            rw [ih b hb]
      | .vlist xs =>
          rw [show fix (.vlist xs) = .vlist (fixList xs) from by simp [fix]]
          rw [show fix (.vlist (fixList xs)) = .vlist (fixList (fixList xs))
            from by simp [fix]]
          have hmem : ∀ x ∈ xs, fix (fix x) = fix x := by
            intro x hx
            have h1 := List.sizeOf_lt_of_mem hx
            have : sizeOf x ≤ n := by
              simp at hv
              omega
            exact ih x this
          rw [fixList_idem_of xs hmem]

theorem fix_idem (v : PyVal) : fix (fix v) = fix v :=
  fix_idem_aux (sizeOf v) v le_rfl

/-- C1: a `div` Element whose attribute sequence contains the exact pair
`("class", "toc")` is dropped entirely by `fix`: it maps to `None`, it (and
hence its whole subtree) is omitted from any filtered node sequence while
the surviving siblings around it keep their relative order, and no ToC div
— however deeply nested — occurs anywhere in the output of `fix`. -/
theorem toc_div_dropped (tag : String) (attrs : List (String × String))
    (body : PyVal) (htag : tag = "div") (hattr : ("class", "toc") ∈ attrs) :
    fix (PyVal.tup tag attrs body) = PyVal.vnone ∧
    (∀ pre post : List PyVal,
      fixList (pre ++ PyVal.tup tag attrs body :: post) =
        fixList pre ++ fixList post) ∧
    (∀ v d : PyVal, Subval d (fix v) → ¬ IsTocDiv d) := by
  have hdrop : fix (PyVal.tup tag attrs body) = PyVal.vnone := by
    simp [fix, htag, hattr]
  refine ⟨hdrop, ?_, fix_no_toc⟩
  intro pre post
  rw [fixList_append]
  simp [fixList, hdrop, PyVal.isNone]

theorem toc_div_dropped_witness :
    fix (PyVal.tup "div" [("class", "toc")] (PyVal.vlist [PyVal.vstr "A"])) =
      PyVal.vnone ∧
    fixList [PyVal.vstr "x",
      PyVal.tup "div" [("class", "toc")] (PyVal.vlist [PyVal.vstr "A"]),
      PyVal.vstr "y"] =
      fixList [PyVal.vstr "x"] ++ fixList [PyVal.vstr "y"] := by
  have h := toc_div_dropped "div" [("class", "toc")]
    (PyVal.vlist [PyVal.vstr "A"]) rfl (List.mem_singleton.mpr rfl)
  exact ⟨h.1, h.2.1 [PyVal.vstr "x"] [PyVal.vstr "y"]⟩

/-- C2: any Element that is not a ToC div keeps its tag and attribute
sequence, with its body recursively filtered; a node sequence is filtered
elementwise with the `None` results omitted and the survivors in order
(`fixList = filter (not None) ∘ map fix`, and `isNone` detects exactly
`None`); text nodes pass through `fix` unchanged. -/
theorem non_toc_kept :
    (∀ (tag : String) (attrs : List (String × String)) (body : PyVal),
      ¬ (tag = "div" ∧ ("class", "toc") ∈ attrs) →
        fix (PyVal.tup tag attrs body) = PyVal.tup tag attrs (fix body)) ∧
    (∀ xs : List PyVal,
      fix (PyVal.vlist xs) = PyVal.vlist (fixList xs)) ∧
    (∀ xs : List PyVal,
      fixList xs = (xs.map fix).filter (fun v => ! v.isNone)) ∧
    (∀ v : PyVal, v.isNone = true ↔ v = PyVal.vnone) ∧
    (∀ s : String, fix (PyVal.vstr s) = PyVal.vstr s) := by
  refine ⟨?_, ?_, fixList_eq_filter_map, PyVal.isNone_iff, ?_⟩
  · intro tag attrs body hg
    simp [fix, hg]
  · intro xs
    simp [fix]
  · intro s
    simp [fix]

theorem non_toc_kept_witness :
    fix (PyVal.tup "p" [("class", "body")] (PyVal.vstr "t")) =
      PyVal.tup "p" [("class", "body")] (fix (PyVal.vstr "t")) :=
  non_toc_kept.1 "p" [("class", "body")] (PyVal.vstr "t") (by simp)

/-- C3: the filter is idempotent, both on a single node (where `fix` is a
total function into nodes-or-`None`) and on node sequences (documents and
children lists). -/
theorem fix_idempotent :
    (∀ v : PyVal, fix (fix v) = fix v) ∧
    (∀ xs : List PyVal, fixList (fixList xs) = fixList xs) :=
  ⟨fix_idem, fun xs => fixList_idem_of xs (fun x _ => fix_idem x)⟩

/-- The character class `[ \t]` of `blank_re`. -/
def isBlankChar (c : Char) : Bool := decide (c = ' ' ∨ c = '\t')

/-- The character class `[ \t\n]` of `blank_re`. -/
def isWspChar (c : Char) : Bool := decide (c = ' ' ∨ c = '\t' ∨ c = '\n')

/-- The ASCII whitespace stripped by Python `str.lstrip()`: space, tab,
newline, carriage return, vertical tab, form feed. -/
def isPySpace (c : Char) : Bool :=
  decide (c = ' ' ∨ c = '\t' ∨ c = '\n' ∨ c = '\r' ∨
    c = Char.ofNat 11 ∨ c = Char.ofNat 12)

/-- Whether a character list contains a newline. -/
def hasNL : List Char → Bool
  | [] => false
  | c :: r => if c = '\n' then true else hasNL r

/-- The prefix of a character list up to and including its last newline
(`[]` when it has none). -/
def throughLastNL : List Char → List Char
  | [] => []
  | c :: r =>
      if hasNL r then c :: throughLastNL r
      else if c = '\n' then ['\n'] else []

/-- `re.sub` of `blank_re = [ \t\n]*\n([ \t]*\n)*` with replacement `"\n"`
(the first post-processing line of `main`).  At each scan position the
leftmost match of the pattern, when one exists, is the prefix of the maximal
run of `[ \t\n]` characters up to and including the run's last newline: the
greedy `[ \t\n]*` backtracks until a literal `\n` follows, which places the
match end at the run's last newline, after which `([ \t]*\n)*` can consume
nothing more.  If the leading whitespace run contains no newline the pattern
cannot match here and scanning advances one character; after a replacement
scanning resumes at the end of the match. -/
def blankSub : List Char → List Char
  | [] => []
  | c :: rest =>
      let m := throughLastNL ((c :: rest).takeWhile isWspChar)
      if h : 0 < m.length then '\n' :: blankSub ((c :: rest).drop m.length)
      else c :: blankSub rest
termination_by l => l.length
decreasing_by
  · unfold m at h
    simp only [List.length_drop, List.length_cons]
    omega
  · simp

/-- One-pass characterization of the substitution: a whitespace character is
deleted exactly when a later newline is reachable from it through
`[ \t\n]` characters only; all other characters are kept. -/
def collapse : List Char → List Char
  | [] => []
  | c :: rest =>
      if isWspChar c && hasNL (rest.takeWhile isWspChar)
      then collapse rest
      else c :: collapse rest

/-- Python `s.lstrip()`: remove leading whitespace characters. -/
def lstrip (l : List Char) : List Char := l.dropWhile isPySpace

/-- The whitespace post-processing in `main`:
`s = blank_re.sub('\n', s)` followed by `s = s.lstrip()`. -/
def strNormalize (l : List Char) : List Char := lstrip (blankSub l)

theorem throughLastNL_eq_nil {r : List Char} (h : hasNL r = false) :
    throughLastNL r = [] := by
  induction r with
  | nil => rfl
  | cons c r ih =>
      by_cases hc : c = '\n'
      · simp [hasNL, hc] at h
      · simp only [hasNL, if_neg hc] at h
        simp [throughLastNL, h, hc, ih h]

theorem throughLastNL_pos {r : List Char} (h : hasNL r = true) :
    0 < (throughLastNL r).length := by
  induction r with
  | nil => simp [hasNL] at h
  | cons c r ih =>
      by_cases hr : hasNL r
      · simp [throughLastNL, hr]
      · by_cases hc : c = '\n'
        · simp [throughLastNL, hr, hc]
        · simp [hasNL, hc, hr] at h

theorem hasNL_cons (c : Char) (r : List Char) :
    hasNL (c :: r) = (decide (c = '\n') || hasNL r) := by
  by_cases hc : c = '\n' <;> simp [hasNL, hc]

theorem blankSub_cons_match {c : Char} {rest : List Char}
    (h : hasNL ((c :: rest).takeWhile isWspChar) = true) :
    blankSub (c :: rest) =
      '\n' :: blankSub ((c :: rest).drop
        (throughLastNL ((c :: rest).takeWhile isWspChar)).length) := by
  have hm := throughLastNL_pos h
  rw [blankSub]
  simp [hm]

theorem blankSub_cons_nomatch {c : Char} {rest : List Char}
    (h : hasNL ((c :: rest).takeWhile isWspChar) = false) :
    blankSub (c :: rest) = c :: blankSub rest := by
  have hm := throughLastNL_eq_nil h
  rw [blankSub]
  simp [hm]

/-- When the leading whitespace run contains a newline, `collapse` deletes
exactly the prefix through the run's last newline and emits one newline —
the same step `blankSub` takes on a match. -/
theorem collapse_match : ∀ l : List Char,
    hasNL (l.takeWhile isWspChar) = true →
    collapse l = '\n' ::
      collapse (l.drop (throughLastNL (l.takeWhile isWspChar)).length) := by
  intro l
  induction l with
  | nil => intro h; simp [List.takeWhile, hasNL] at h
  | cons c rest ih =>
      intro h
      have hwc : isWspChar c = true := by
        by_contra hw
        rw [List.takeWhile_cons_of_neg (by simpa using hw)] at h
        simp [hasNL] at h
      rw [List.takeWhile_cons_of_pos hwc] at h ⊢
      by_cases hrw : hasNL (rest.takeWhile isWspChar) = true
      · have hcol : collapse (c :: rest) = collapse rest := by
          simp [collapse, hwc, hrw]
        have htl : throughLastNL (c :: rest.takeWhile isWspChar) =
            c :: throughLastNL (rest.takeWhile isWspChar) := by
          simp [throughLastNL, hrw]
        rw [hcol, ih hrw, htl]
        simp
      · have hrw' : hasNL (rest.takeWhile isWspChar) = false := by
          simpa using hrw
        have hc : c = '\n' := by
          by_contra hc
          rw [hasNL_cons] at h
          simp [hc, hrw'] at h
        have hcol : collapse (c :: rest) = c :: collapse rest := by
          simp [collapse, hrw']
        have htl : throughLastNL (c :: rest.takeWhile isWspChar) = ['\n'] := by
          simp [throughLastNL, hrw', hc]
        rw [hcol, htl]
        simp [hc]

theorem blankSub_eq_collapse_aux : ∀ (n : ℕ) (l : List Char),
    l.length ≤ n → blankSub l = collapse l := by
  intro n
  induction n with
  | zero =>
      intro l hl
      have : l = [] := List.eq_nil_of_length_eq_zero (Nat.le_zero.mp hl)
      subst this
      rw [blankSub]
      rfl
  | succ n ih =>
      intro l hl
      match l with
      | [] => rw [blankSub]; rfl
      | c :: rest =>
          by_cases h : hasNL ((c :: rest).takeWhile isWspChar) = true
          · rw [blankSub_cons_match h, collapse_match _ h]
            congr 1
            apply ih
            have hm := throughLastNL_pos h
            simp only [List.length_drop, List.length_cons]
            simp only [List.length_cons] at hl
            omega
          · have h' : hasNL ((c :: rest).takeWhile isWspChar) = false := by
              simpa using h
            rw [blankSub_cons_nomatch h']
            have hg : (isWspChar c && hasNL (rest.takeWhile isWspChar)) =
                false := by
              by_cases hwc : isWspChar c
              · rw [List.takeWhile_cons_of_pos hwc, hasNL_cons] at h'
                simp at h'
                simp [h'.2]
              · have hw : isWspChar c = false := by simpa using hwc
                simp [hw]
            rw [show collapse (c :: rest) = c :: collapse rest from by
              simp [collapse, hg]]
            congr 1
            apply ih
            simp only [List.length_cons] at hl
            omega

theorem blankSub_eq_collapse (l : List Char) : blankSub l = collapse l :=
  blankSub_eq_collapse_aux l.length l le_rfl

/-- Normal form for the substitution: no position holds a whitespace
character from which a later newline is reachable through whitespace. -/
def GoodWs : List Char → Prop
  | [] => True
  | c :: r => (isWspChar c && hasNL (r.takeWhile isWspChar)) = false ∧ GoodWs r

theorem collapse_of_goodWs : ∀ l : List Char, GoodWs l → collapse l = l := by
  intro l
  induction l with
  | nil => intro _; rfl
  | cons c r ih =>
      intro h
      rw [show collapse (c :: r) = c :: collapse r from by
        simp [collapse, h.1]]
      rw [ih h.2]

theorem collapse_noNL_run : ∀ l : List Char,
    hasNL (l.takeWhile isWspChar) = false →
    hasNL ((collapse l).takeWhile isWspChar) = false := by
  intro l
  induction l with
  | nil => intro h; exact h
  | cons c r ih =>
      intro h
      by_cases hwc : isWspChar c
      · rw [List.takeWhile_cons_of_pos hwc, hasNL_cons] at h
        simp at h
        obtain ⟨hc, hr⟩ := h
        rw [show collapse (c :: r) = c :: collapse r from by
          simp [collapse, hr]]
        rw [List.takeWhile_cons_of_pos hwc, hasNL_cons]
        simp [hc, ih hr]
      · have hw : isWspChar c = false := by simpa using hwc
        rw [show collapse (c :: r) = c :: collapse r from by simp [collapse, hw]]
        rw [List.takeWhile_cons_of_neg (by simp [hw])]
        simp [hasNL]

theorem goodWs_collapse : ∀ l : List Char, GoodWs (collapse l) := by
  intro l
  induction l with
  | nil => trivial
  | cons c r ih =>
      by_cases hg : (isWspChar c && hasNL (r.takeWhile isWspChar)) = true
      · rw [show collapse (c :: r) = collapse r from by simp [collapse, hg]]
        exact ih
      · have hg' : (isWspChar c && hasNL (r.takeWhile isWspChar)) = false := by
          simpa using hg
        rw [show collapse (c :: r) = c :: collapse r from by
          simp [collapse, hg']]
        refine ⟨?_, ih⟩
        by_cases hwc : isWspChar c
        · have hr : hasNL (r.takeWhile isWspChar) = false := by
            simpa [hwc] using hg'
          simp [hwc, collapse_noNL_run r hr]
        · simp [show isWspChar c = false by simpa using hwc]

theorem goodWs_dropWhile (p : Char → Bool) :
    ∀ l : List Char, GoodWs l → GoodWs (l.dropWhile p) := by
  intro l
  induction l with
  | nil => intro h; exact h
  | cons c r ih =>
      intro h
      by_cases hp : p c
      · rw [List.dropWhile_cons_of_pos hp]
        exact ih h.2
      · rw [List.dropWhile_cons_of_neg (by simpa using hp)]
        exact h

theorem dropWhile_dropWhile (p : Char → Bool) (l : List Char) :
    List.dropWhile p (List.dropWhile p l) = List.dropWhile p l := by
  induction l with
  | nil => rfl
  | cons c r ih =>
      by_cases hp : p c
      · rw [List.dropWhile_cons_of_pos hp]
        exact ih
      · rw [List.dropWhile_cons_of_neg (by simpa using hp),
          List.dropWhile_cons_of_neg (by simpa using hp)]

theorem dropWhile_head (p : Char → Bool) : ∀ l : List Char,
    l.dropWhile p = [] ∨
      ∃ c r, l.dropWhile p = c :: r ∧ p c = false := by
  intro l
  induction l with
  | nil => exact Or.inl rfl
  | cons c r ih =>
      by_cases hp : p c
      · rw [List.dropWhile_cons_of_pos hp]
        exact ih
      · rw [List.dropWhile_cons_of_neg (by simpa using hp)]
        exact Or.inr ⟨c, r, rfl, by simpa using hp⟩

/-- The lines of a text, splitting at each newline. -/
def splitLines : List Char → List (List Char)
  | [] => [[]]
  | c :: r =>
      if c = '\n' then [] :: splitLines r
      else
        match splitLines r with
        | [] => [[c]]
        | L :: Ls => (c :: L) :: Ls

/-- Join lines back together with single newline separators. -/
def joinLines : List (List Char) → List Char
  | [] => []
  | [L] => L
  | L :: Ls => L ++ '\n' :: joinLines Ls

/-- A line that is empty or contains only spaces and tabs. -/
def isBlankLine (L : List Char) : Bool := L.all isBlankChar

/-- The normalization step as the specification's words describe it:
collapse every maximal run of lines that are empty or contain only
spaces/tabs into a single newline, then remove any leading blank line(s)
from the start of the document, changing nothing else.  Collapsing each
maximal run of blank lines to a single newline amounts to deleting those
lines (the one remaining newline is the separator joining the surrounding
lines), which also subsumes removing leading blank lines. -/
def specNormalize (l : List Char) : List Char :=
  joinLines ((splitLines l).filter (fun L => ! isBlankLine L))

/-- A space or tab standing immediately before a newline somewhere in the
text. -/
def hasBlankNL : List Char → Bool
  | [] => false
  | [_] => false
  | a :: b :: r => (isBlankChar a && decide (b = '\n')) || hasBlankNL (b :: r)

theorem isWspChar_of_blank {c : Char} (h : isBlankChar c = true) :
    isWspChar c = true := by
  simp [isBlankChar] at h
  rcases h with h | h <;> simp [isWspChar, h]

theorem goodWs_no_blankNL : ∀ l : List Char,
    GoodWs l → hasBlankNL l = false := by
  intro l
  induction l with
  | nil => intro _; rfl
  | cons a t ih =>
      intro h
      cases t with
      | nil => rfl
      | cons b r =>
          rw [show hasBlankNL (a :: b :: r) =
              ((isBlankChar a && decide (b = '\n')) || hasBlankNL (b :: r))
            from rfl]
          rw [ih h.2]
          simp only [Bool.or_false]
          by_cases hb : isBlankChar a
          · by_cases hbn : b = '\n'
            · exfalso
              have hw := isWspChar_of_blank hb
              have hnl : hasNL ((b :: r).takeWhile isWspChar) = true := by
                rw [hbn,
                  List.takeWhile_cons_of_pos (by simp [isWspChar]),
                  hasNL_cons]
                simp
              have h1 := h.1
              rw [hw, hnl] at h1
              simp at h1
            · simp [hbn]
          · simp [show isBlankChar a = false by simpa using hb]

/-- C5 counterexample: the text `"a \nb"` has no blank lines and no leading
blank lines, so the transform the claim describes leaves it unchanged — and
indeed the spec-described transform is the identity on it — but the code's
normalization deletes the trailing space of the first line, because the
greedy `[ \t\n]*\n` of `blank_re` also consumes spaces and tabs standing
before the newline of a non-blank line. -/
theorem normalize_changes_more_cex :
    strNormalize ['a', ' ', '\n', 'b'] ≠ ['a', ' ', '\n', 'b'] ∧
    specNormalize ['a', ' ', '\n', 'b'] = ['a', ' ', '\n', 'b'] := by
  constructor
  · unfold strNormalize lstrip
    rw [blankSub_eq_collapse]
    decide
  · decide

/-- C5 (amended): the whitespace step replaces, inside every maximal run of
spaces/tabs/newlines that contains a newline, the portion up to and
including the run's last newline by a single newline — equivalently, it
deletes exactly those whitespace characters from which a later newline is
reachable through whitespace, keeping a run's trailing spaces/tabs — and
then strips all leading whitespace characters from the document (not only
leading blank lines); nothing else changes. -/
theorem normalize_characterization (l : List Char) :
    strNormalize l = (collapse l).dropWhile isPySpace := by
  unfold strNormalize lstrip
  rw [blankSub_eq_collapse]

/-- C6: the whitespace normalization (the `blank_re` substitution followed
by `lstrip`) is idempotent. -/
theorem normalize_idempotent (l : List Char) :
    strNormalize (strNormalize l) = strNormalize l := by
  unfold strNormalize lstrip
  rw [blankSub_eq_collapse, blankSub_eq_collapse]
  rw [collapse_of_goodWs _ (goodWs_dropWhile _ _ (goodWs_collapse l))]
  exact dropWhile_dropWhile _ _

/-- C7: the normalized output never starts with a newline nor with a
whitespace-only line: it is empty, or its first character — hence a
character of its first line — is not whitespace. -/
theorem normalize_no_leading_blank (l : List Char) :
    (strNormalize l).head? ≠ some '\n' ∧
    (strNormalize l = [] ∨
      ((strNormalize l).takeWhile (fun c => ! decide (c = '\n'))).any
        (fun c => ! isPySpace c) = true) := by
  unfold strNormalize lstrip
  rcases dropWhile_head isPySpace (blankSub l) with h | ⟨c, r, h, hc⟩
  · rw [h]
    exact ⟨by simp, Or.inl rfl⟩
  · rw [h]
    have hcn : c ≠ '\n' := by
      intro he
      rw [he] at hc
      simp [isPySpace] at hc
    constructor
    · simp [hcn]
    · right
      rw [List.takeWhile_cons_of_pos (by simp [hcn])]
      simp [hc]

/-- C10: beyond collapsing blank lines, the normalization removes trailing
spaces/tabs before every newline (no space or tab immediately precedes a
newline in the output) and strips the document of all leading whitespace
characters (so in particular the first line keeps no leading indentation). -/
theorem normalize_strips_more (l : List Char) :
    hasBlankNL (strNormalize l) = false ∧
    (strNormalize l).dropWhile isPySpace = strNormalize l := by
  unfold strNormalize lstrip
  rw [blankSub_eq_collapse]
  constructor
  · exact goodWs_no_blankNL _ (goodWs_dropWhile _ _ (goodWs_collapse l))
  · exact dropWhile_dropWhile _ _

/-- The two kinds of exception the `try` around `p.feed(line)`
distinguishes: an `HTMLParseError` carrying `lineno`, `offset` and `msg`,
or any other exception, carrying its `repr`. -/
inductive FeedErr : Type where
  | parseErr (lineno offset : Nat) (msg : String)
  | otherExc (rep : String)

/-- The `for n, line in enumerate(inf)` loop of `main`: feed each line in
turn to the parser (an abstract state machine, since the parser lives in
the `html` module outside this script); the first exception aborts the loop
and is reported together with the 0-based index `n` of the line being fed
and the line itself. -/
def runFeed {σ : Type} (feed : σ → String → Except FeedErr σ) :
    σ → Nat → List String → Except (FeedErr × Nat × String) σ
  | st, _, [] => .ok st
  | st, n, line :: rest =>
      match feed st line with
      | .ok st' => runFeed feed st' (n + 1) rest
      | .error e => .error (e, n, line)

/-- File acquisition/release events of one run, in program order. -/
inductive Ev : Type where
  | openIn
  | closeIn
  | openOut
  | closeOut
  deriving DecidableEq

/-- The diagnostic `main` writes to stderr for a feed failure:
`'%s:%d:%d: Parse error: %s\n' % (infile, err.lineno, err.offset, err.msg)`
for an `HTMLParseError`, and
`'%s:%d:0: Error (%s): %s\n' % (infile, n + 1, repr(err), line)` for any
other exception (`n` being the 0-based index of the offending line). -/
def diag (infile : String) : FeedErr → Nat → String → String
  | .parseErr lineno offset msg, _, _ =>
      infile ++ ":" ++ toString lineno ++ ":" ++ toString offset ++
        ": Parse error: " ++ msg ++ "\n"
  | .otherExc rep, n, line =>
      infile ++ ":" ++ toString (n + 1) ++ ":0: Error (" ++ rep ++ "): " ++
        line ++ "\n"

/-- Observable outcome of one run of `main`. -/
structure MainResult : Type where
  exitCode : Nat
  errLines : List String
  written : Option (List Char)
  events : List Ev

/-- `main` from g.html2man.py, shallowly embedded.  The HTML parser is the
abstract state machine `(σ, s0, feed, data)` — `data st` models `p.data`,
the parsed document — and the groff `Formatter` is the abstract `fmt`
(`f.pp(…)` writes into a `StringIO` buffer); both live in modules outside
this script.  `main` opens the input file, feeds it line by line — on the
first exception it writes one diagnostic to stderr and calls `sys.exit(1)`
right there, before the `inf.close()` after the loop is reached and before
the output file is ever opened — otherwise it closes the input, formats
`fix(p.data)` into a buffer, normalizes the whitespace, and only then
opens, writes and closes the destination file, exiting with status 0. -/
def main {σ : Type} (feed : σ → String → Except FeedErr σ) (s0 : σ)
    (data : σ → PyVal) (fmt : PyVal → List Char) (infile : String)
    (lines : List String) : MainResult :=
  match runFeed feed s0 0 lines with
  | .error (e, n, line) =>
      { exitCode := 1
        errLines := [diag infile e n line]
        written := none
        events := [.openIn] }
  | .ok st =>
      { exitCode := 0
        errLines := []
        written := some (strNormalize (fmt (fix (data st))))
        events := [.openIn, .closeIn, .openOut, .closeOut] }

/-- C4: on any feed failure `main` writes a single diagnostic line to the
error stream and exits with status 1, and nothing is written to the
destination file, which is never even opened; on success the exit code is 0,
nothing goes to the error stream, and the destination receives the
formatted, filtered, whitespace-normalized document. -/
theorem main_error_policy {σ : Type} (feed : σ → String → Except FeedErr σ)
    (s0 : σ) (data : σ → PyVal) (fmt : PyVal → List Char) (infile : String)
    (lines : List String) :
    (∀ e n line, runFeed feed s0 0 lines = .error (e, n, line) →
      (main feed s0 data fmt infile lines).exitCode = 1 ∧
      (main feed s0 data fmt infile lines).errLines.length = 1 ∧
      (main feed s0 data fmt infile lines).written = none ∧
      Ev.openOut ∉ (main feed s0 data fmt infile lines).events) ∧
    (∀ st, runFeed feed s0 0 lines = .ok st →
      (main feed s0 data fmt infile lines).exitCode = 0 ∧
      (main feed s0 data fmt infile lines).errLines = [] ∧
      (main feed s0 data fmt infile lines).written =
        some (strNormalize (fmt (fix (data st))))) := by
  constructor
  · intro e n line h
    simp [main, h]
  · intro st h
    simp [main, h]

theorem main_error_policy_witness :
    ((main (σ := Unit) (fun _ _ => Except.error (FeedErr.otherExc "boom"))
        () (fun _ => PyVal.vnone) (fun _ => []) "in.html"
        ["<p>"]).exitCode = 1 ∧
      (main (σ := Unit) (fun _ _ => Except.error (FeedErr.otherExc "boom"))
        () (fun _ => PyVal.vnone) (fun _ => []) "in.html"
        ["<p>"]).written = none) ∧
    (main (σ := Unit) (fun st _ => Except.ok st)
        () (fun _ => PyVal.vnone) (fun _ => []) "in.html"
        ["<p>"]).exitCode = 0 := by
  have h1 := (main_error_policy (σ := Unit)
    (fun _ _ => Except.error (FeedErr.otherExc "boom"))
    () (fun _ => PyVal.vnone) (fun _ => []) "in.html" ["<p>"]).1
    (FeedErr.otherExc "boom") 0 "<p>" rfl
  have h2 := (main_error_policy (σ := Unit) (fun st _ => Except.ok st)
    () (fun _ => PyVal.vnone) (fun _ => []) "in.html" ["<p>"]).2
    () rfl
  exact ⟨⟨h1.1, h1.2.2.1⟩, h2.1⟩

/-- C8: the two diagnostics carry exactly the stated content: for an
`HTMLParseError`, the input file name with the error's line number, column
offset and message; for any other exception raised while feeding, the input
file name, the 1-based number of the line being fed (the loop index is
0-based), the exception's representation and the raw offending line; both
paths exit with status 1. -/
theorem main_diag_content {σ : Type} (feed : σ → String → Except FeedErr σ)
    (s0 : σ) (data : σ → PyVal) (fmt : PyVal → List Char) (infile : String)
    (lines : List String) :
    (∀ lineno offset msg n line,
      runFeed feed s0 0 lines =
          .error (.parseErr lineno offset msg, n, line) →
      (main feed s0 data fmt infile lines).errLines =
        [infile ++ ":" ++ toString lineno ++ ":" ++ toString offset ++
          ": Parse error: " ++ msg ++ "\n"] ∧
      (main feed s0 data fmt infile lines).exitCode = 1) ∧
    (∀ rep n line,
      runFeed feed s0 0 lines = .error (.otherExc rep, n, line) →
      (main feed s0 data fmt infile lines).errLines =
        [infile ++ ":" ++ toString (n + 1) ++ ":0: Error (" ++ rep ++
          "): " ++ line ++ "\n"] ∧
      (main feed s0 data fmt infile lines).exitCode = 1) := by
  constructor
  · intro lineno offset msg n line h
    simp [main, h, diag]
  · intro rep n line h
    simp [main, h, diag]

theorem main_diag_content_witness :
    (main (σ := Unit)
        (fun _ _ => Except.error (FeedErr.parseErr 3 7 "bad tag"))
        () (fun _ => PyVal.vnone) (fun _ => []) "f.html"
        ["<h1>"]).errLines =
      ["f.html" ++ ":" ++ toString 3 ++ ":" ++ toString 7 ++
        ": Parse error: " ++ "bad tag" ++ "\n"] ∧
    (main (σ := Unit)
        (fun _ _ => Except.error (FeedErr.otherExc "ValueError()"))
        () (fun _ => PyVal.vnone) (fun _ => []) "f.html"
        ["<h1>"]).errLines =
      ["f.html" ++ ":" ++ toString (0 + 1) ++ ":0: Error (" ++
        "ValueError()" ++ "): " ++ "<h1>" ++ "\n"] := by
  have h1 := (main_diag_content (σ := Unit)
    (fun _ _ => Except.error (FeedErr.parseErr 3 7 "bad tag"))
    () (fun _ => PyVal.vnone) (fun _ => []) "f.html" ["<h1>"]).1
    3 7 "bad tag" 0 "<h1>" rfl
  have h2 := (main_diag_content (σ := Unit)
    (fun _ _ => Except.error (FeedErr.otherExc "ValueError()"))
    () (fun _ => PyVal.vnone) (fun _ => []) "f.html" ["<h1>"]).2
    "ValueError()" 0 "<h1>" rfl
  exact ⟨h1.1, h2.1⟩

/-- C9 counterexample: a concrete failing run in which the program never
closes the input file: `sys.exit(1)` is raised inside the loop, before the
`inf.close()` that only the success path reaches, so no close event occurs
on the parse-failure path — refuting the claim that the input handle is
released by the program on failure as well. -/
theorem main_input_not_closed_cex :
    (main (σ := Unit) (fun _ _ => Except.error (FeedErr.otherExc "boom"))
      () (fun _ => PyVal.vnone) (fun _ => []) "in.html"
      ["<p>"]).exitCode = 1 ∧
    Ev.closeIn ∉
      (main (σ := Unit) (fun _ _ => Except.error (FeedErr.otherExc "boom"))
        () (fun _ => PyVal.vnone) (fun _ => []) "in.html"
        ["<p>"]).events := by
  constructor
  · simp [main, runFeed]
  · simp [main, runFeed]

/-- C9 (amended): each file is acquired at most once per run.  On success
the input is opened and closed and the output is then opened, written and
closed, in that order.  On a feed failure the program exits immediately:
the input has been opened but the program itself never closes it (release
is left to process termination), and the output file is never opened. -/
theorem main_file_events {σ : Type} (feed : σ → String → Except FeedErr σ)
    (s0 : σ) (data : σ → PyVal) (fmt : PyVal → List Char) (infile : String)
    (lines : List String) :
    (∀ st, runFeed feed s0 0 lines = .ok st →
      (main feed s0 data fmt infile lines).events =
        [Ev.openIn, Ev.closeIn, Ev.openOut, Ev.closeOut]) ∧
    (∀ e n line, runFeed feed s0 0 lines = .error (e, n, line) →
      (main feed s0 data fmt infile lines).events = [Ev.openIn]) ∧
    (∀ ev : Ev, (main feed s0 data fmt infile lines).events.count ev ≤ 1) := by
  refine ⟨?_, ?_, ?_⟩
  · intro st h
    simp [main, h]
  · intro e n line h
    simp [main, h]
  · intro ev
    cases hr : runFeed feed s0 0 lines with
    | ok st =>
        simp only [main, hr]
        cases ev <;> simp [List.count_cons]
    | error e =>
        obtain ⟨e, n, line⟩ := e
        simp only [main, hr]
        cases ev <;> simp [List.count_cons]

theorem main_file_events_witness :
    (main (σ := Unit) (fun st _ => Except.ok st)
        () (fun _ => PyVal.vnone) (fun _ => []) "in.html"
        ["<h1>t</h1>"]).events =
      [Ev.openIn, Ev.closeIn, Ev.openOut, Ev.closeOut] ∧
    (main (σ := Unit) (fun _ _ => Except.error (FeedErr.otherExc "E()"))
        () (fun _ => PyVal.vnone) (fun _ => []) "in.html"
        ["<h1>t</h1>"]).events = [Ev.openIn] := by
  have h1 := (main_file_events (σ := Unit) (fun st _ => Except.ok st)
    () (fun _ => PyVal.vnone) (fun _ => []) "in.html" ["<h1>t</h1>"]).1
    () rfl
  have h2 := (main_file_events (σ := Unit)
    (fun _ _ => Except.error (FeedErr.otherExc "E()"))
    () (fun _ => PyVal.vnone) (fun _ => []) "in.html" ["<h1>t</h1>"]).2.1
    (FeedErr.otherExc "E()") 0 "<h1>t</h1>" rfl
  exact ⟨h1, h2⟩
